import Mathlib

/-!
Verification of the Larynx real-time transcription core.

Python strings are modelled as lists of Unicode code points (`List Nat`);
the ASCII behaviour of `str.strip()`, `str.split()`, `str.upper()` and of the
regular expressions used by the source is embedded as executable functions.
The `TextBuffer` class of `src/text_buffer.py`, the `VoskEngine.process_audio`
contract of `src/vosk_engine.py`, the drop-oldest queue push pattern of
`src/audio_capture.py` / `main.py`, and the `stop_recording` finalization path
of `main.py` are embedded and their specified properties are settled below.
-/

namespace Larynx

/-- Text is modelled as the list of Unicode code points of a Python `str`. -/
abbrev PyStr := List Nat

/-- Code points of a Lean string literal; used for concrete inputs. -/
def pyStr (s : String) : PyStr := s.data.map Char.toNat

/-- Python's whitespace class (ASCII part): the characters matched by `\s`
and stripped by `str.strip()` / split on by `str.split()`. -/
def isPySpace (c : Nat) : Bool := decide (c = 32 ∨ c = 9 ∨ c = 10 ∨ c = 13 ∨ c = 11 ∨ c = 12)

/-- The sentence-ending characters `.`, `!`, `?` of the regex in `_format_text`. -/
def isSentEnd (c : Nat) : Bool := decide (c = 46 ∨ c = 33 ∨ c = 63)

/-- The character class `[a-z]` of the regex in `_format_text`. -/
def isLowerAZ (c : Nat) : Bool := decide (97 ≤ c ∧ c ≤ 122)

/-- Python `str.upper()` on a single ASCII character. -/
def upChar (c : Nat) : Nat := if isLowerAZ c then c - 32 else c

/-- ASCII lower-casing, used only to state case-insensitive containment. -/
def caseFold (c : Nat) : Nat := if 65 ≤ c ∧ c ≤ 90 then c + 32 else c

/-- `re.sub(r'\s+', ' ', text)`: replace every maximal run of whitespace
by a single space (code point 32). -/
def collapseWS : PyStr → PyStr
  | [] => []
  | [c] => if isPySpace c then [32] else [c]
  | c :: d :: rest =>
    if isPySpace c then
      if isPySpace d then collapseWS (d :: rest)
      else 32 :: collapseWS (d :: rest)
    else c :: collapseWS (d :: rest)

/-- Remove trailing whitespace. -/
def dropTrailWS (l : PyStr) : PyStr := (l.reverse.dropWhile isPySpace).reverse

/-- Python `str.strip()`: remove leading and trailing whitespace. -/
def pyStrip (l : PyStr) : PyStr := dropTrailWS (l.dropWhile isPySpace)

/-- Helper of `pySplit`; `acc` holds the current word reversed. -/
def splitAux : PyStr → PyStr → List PyStr
  | [], acc => if acc = [] then [] else [acc.reverse]
  | c :: rest, acc =>
    if isPySpace c then
      if acc = [] then splitAux rest [] else acc.reverse :: splitAux rest []
    else splitAux rest (c :: acc)

/-- Python `str.split()` with no arguments: whitespace-separated tokens,
with no empty tokens. -/
def pySplit (l : PyStr) : List PyStr := splitAux l []

/-- `formatted[0].upper() + formatted[1:]` of `_format_text`. -/
def upHead : PyStr → PyStr
  | [] => []
  | c :: cs => upChar c :: cs

/-- Left-to-right scan of `re.sub(r'([.!?]\s*)([a-z])', ...)`: `afterP` records
that a sentence-ending character has been seen, separated from the current
position only by whitespace, and that the sub-expression `\s*` of a potential
match is still being extended. -/
def capAux (afterP : Bool) : PyStr → PyStr
  | [] => []
  | c :: rest =>
    if afterP && isLowerAZ c then upChar c :: capAux false rest
    else if isSentEnd c then c :: capAux true rest
    else if afterP && isPySpace c then c :: capAux true rest
    else c :: capAux false rest

/-- `re.sub(r'([.!?]\s*)([a-z])', lambda m: m.group(1) + m.group(2).upper(), ...)`. -/
def capAfterPunct (l : PyStr) : PyStr := capAux false l

/-- `TextBuffer._clean_text` (src/text_buffer.py lines 94-113). -/
def cleanText (text : PyStr) : PyStr :=
  if text = [] then [] else collapseWS (pyStrip text)

/-- `TextBuffer._format_text` (src/text_buffer.py lines 115-138). -/
def formatText (text : PyStr) : PyStr :=
  if text = [] then [] else capAfterPunct (upHead (collapseWS (pyStrip text)))

/-- The state of `TextBuffer` (src/text_buffer.py lines 20-25). -/
structure TextBuffer where
  final_text : PyStr
  partial_text : PyStr
  last_partial_length : Nat

namespace TextBuffer

/-- `TextBuffer.__init__`. -/
def init : TextBuffer := ⟨[], [], 0⟩

/-- `TextBuffer.add_partial_text` (lines 27-40): Python's `if text:`
is non-emptiness of the string. -/
def add_partial_text (b : TextBuffer) (text : PyStr) : TextBuffer :=
  if text ≠ [] then { b with partial_text := cleanText text }
  else { b with partial_text := [] }

/-- `TextBuffer.add_final_text` (lines 42-54): on non-empty `text` the cleaned
text plus a trailing space is appended and the partial is cleared; on empty
`text` the body of the `if` is skipped entirely. -/
def add_final_text (b : TextBuffer) (text : PyStr) : TextBuffer :=
  if text ≠ [] then
    { b with final_text := b.final_text ++ cleanText text ++ [32], partial_text := [] }
  else b

/-- `TextBuffer.get_full_text` (lines 56-65). -/
def get_full_text (b : TextBuffer) : PyStr :=
  formatText (pyStrip (b.final_text ++ b.partial_text))

/-- `TextBuffer.get_word_count` (lines 140-148): `len(self.final_text.split())`. -/
def get_word_count (b : TextBuffer) : Nat := (pySplit b.final_text).length

/-- `TextBuffer.clear` (lines 87-92). -/
def clear (_b : TextBuffer) : TextBuffer := ⟨[], [], 0⟩

end TextBuffer

/-- One `add_partial_text` / `add_final_text` call, for stating properties of
call sequences. -/
inductive BufOp
  | opPartial (t : PyStr)
  | opFinal (t : PyStr)

def applyOp (b : TextBuffer) : BufOp → TextBuffer
  | .opPartial t => b.add_partial_text t
  | .opFinal t => b.add_final_text t

/-- The recognizer-facing state of `VoskEngine` (src/vosk_engine.py):
`hasRecognizer` models `self.recognizer is not None`. -/
structure VoskEngine where
  is_active : Bool
  hasRecognizer : Bool

/-- Behaviour of the opaque Vosk recognizer on one audio chunk:
`AcceptWaveform` returned true and `Result()` carried `text`, or it returned
false and `PartialResult()` carried `text`, or an exception was raised while
processing the chunk. -/
inductive RecEvent
  | acceptedFinal (text : PyStr)
  | partialRes (text : PyStr)
  | procError

/-- The dict returned by `process_audio`:
`{'partial': ..., 'final': ...}` with `None` as `Option.none`. -/
structure RecResults where
  partialOut : Option PyStr
  finalOut : Option PyStr
deriving DecidableEq

/-- `VoskEngine.process_audio` (src/vosk_engine.py lines 65-99): an inactive
or missing recognizer returns early with both entries `None`; otherwise one
recognizer branch runs and strips its text; an exception is caught, leaving
both entries `None`, and the function still returns normally. -/
def process_audio (e : VoskEngine) (ev : RecEvent) : RecResults :=
  if !e.is_active || !e.hasRecognizer then ⟨none, none⟩
  else
    match ev with
    | .acceptedFinal t => ⟨none, some (pyStrip t)⟩
    | .partialRes t => ⟨some (pyStrip t), none⟩
    | .procError => ⟨none, none⟩

/-- `VoskEngine.get_final_result` (src/vosk_engine.py lines 119-135):
`resultText` is the text carried by the recognizer's `Result()` JSON, `none`
modelling an exception while obtaining it (caught, returning `""`). -/
def get_final_result (e : VoskEngine) (resultText : Option PyStr) : PyStr :=
  if !e.is_active || !e.hasRecognizer then []
  else
    match resultText with
    | some t => pyStrip t
    | none => []

/-- `LarynxApp._finalize_transcription` (src/main.py lines 261-273): the
remaining final result is fetched and, if non-empty, committed to the buffer. -/
def finalize_transcription (e : VoskEngine) (resultText : Option PyStr)
    (buf : TextBuffer) : TextBuffer :=
  let r := get_final_result e resultText
  if r ≠ [] then buf.add_final_text r else buf

/-- Effect of `LarynxApp.stop_recording` (src/main.py lines 171-194) on the
text buffer: an early return when not recording; otherwise capture is stopped
and the worker threads joined (neither touches `final_text` afterwards), and
`_finalize_transcription` runs unconditionally before the method returns. -/
def stop_recording_effect (recording : Bool) (e : VoskEngine)
    (resultText : Option PyStr) (buf : TextBuffer) : TextBuffer :=
  if recording then finalize_transcription e resultText buf else buf

/-- `queue.Queue(maxsize=cap).put_nowait` semantics: insert at the back if
there is room, otherwise report `Full`. The front of the list is the oldest
element. -/
def queuePut (cap : Nat) (q : List α) (x : α) : Option (List α) :=
  if q.length < cap then some (q ++ [x]) else none

/-- The push pattern of `AudioCapture._recording_worker` (src/audio_capture.py
lines 97-106) and `LarynxApp._audio_capture_worker` (src/main.py lines
210-218): try `put`; on `Full`, `get_nowait()` the oldest element and retry
the `put`; any failure inside the recovery is swallowed by `except: pass`. -/
def pushDropOldest (cap : Nat) (q : List α) (x : α) : List α :=
  match queuePut cap q x with
  | some q' => q'
  | none =>
    match q with
    | [] => []
    | _ :: rest =>
      match queuePut cap rest x with
      | some q' => q'
      | none => rest

/-! ### Character-class lemmas -/

theorem ws_upChar (c : Nat) : isPySpace (upChar c) = isPySpace c := by
  unfold upChar
  by_cases h : isLowerAZ c = true
  · rw [if_pos h]
    simp only [isLowerAZ, decide_eq_true_eq] at h
    simp only [isPySpace, decide_eq_decide]
    omega
  · rw [if_neg h]

theorem lower_upChar (c : Nat) : isLowerAZ (upChar c) = false := by
  unfold upChar
  by_cases h : isLowerAZ c = true
  · rw [if_pos h]
    simp only [isLowerAZ, decide_eq_true_eq] at h
    simp only [isLowerAZ, decide_eq_false_iff_not]
    omega
  · rw [if_neg h]
    simpa using h

theorem upChar_idem (c : Nat) : upChar (upChar c) = upChar c := by
  rw [show upChar (upChar c) = if isLowerAZ (upChar c) then upChar c - 32 else upChar c from rfl,
    lower_upChar]
  simp

theorem punct_upChar (c : Nat) : isSentEnd (upChar c) = isSentEnd c := by
  unfold upChar
  by_cases h : isLowerAZ c = true
  · rw [if_pos h]
    simp only [isLowerAZ, decide_eq_true_eq] at h
    simp only [isSentEnd, decide_eq_decide]
    omega
  · rw [if_neg h]

theorem caseFold_upChar (c : Nat) : caseFold (upChar c) = caseFold c := by
  unfold upChar caseFold
  by_cases h : isLowerAZ c = true
  · rw [if_pos h]
    simp only [isLowerAZ, decide_eq_true_eq] at h
    rw [if_pos (by omega), if_neg (by omega)]
    omega
  · rw [if_neg h]

theorem lower_not_ws {c : Nat} (h : isLowerAZ c = true) : isPySpace c = false := by
  simp only [isLowerAZ, decide_eq_true_eq] at h
  simp only [isPySpace, decide_eq_false_iff_not]
  omega

theorem lower_not_punct {c : Nat} (h : isLowerAZ c = true) : isSentEnd c = false := by
  simp only [isLowerAZ, decide_eq_true_eq] at h
  simp only [isSentEnd, decide_eq_false_iff_not]
  omega

theorem punct_not_lower {c : Nat} (h : isSentEnd c = true) : isLowerAZ c = false := by
  simp only [isSentEnd, decide_eq_true_eq] at h
  simp only [isLowerAZ, decide_eq_false_iff_not]
  omega

theorem ws_not_lower {c : Nat} (h : isPySpace c = true) : isLowerAZ c = false := by
  simp only [isPySpace, decide_eq_true_eq] at h
  simp only [isLowerAZ, decide_eq_false_iff_not]
  omega

theorem isPySpace_32 : isPySpace 32 = true := rfl

/-! ### dropWhile / strip lemmas -/

theorem dropWhile_head_false {p : Nat → Bool} {l t : PyStr} {c : Nat}
    (h : l.dropWhile p = c :: t) : p c = false := by
  induction l with
  | nil => simp at h
  | cons a l ih =>
    by_cases ha : p a = true
    · rw [List.dropWhile_cons_of_pos ha] at h
      exact ih h
    · rw [List.dropWhile_cons_of_neg ha] at h
      obtain ⟨h1, _⟩ := List.cons.inj h
      subst h1
      simpa using ha

theorem dropWhile_eq_self {p : Nat → Bool} {l : PyStr}
    (h : ∀ c, l.head? = some c → p c = false) : l.dropWhile p = l := by
  cases l with
  | nil => rfl
  | cons a t => exact List.dropWhile_cons_of_neg (by simp [h a rfl])

theorem dropWhile_append_of_fix {p : Nat → Bool} {y : PyStr} (F : PyStr)
    (h : y.dropWhile p = y) : (F ++ y).dropWhile p = F.dropWhile p ++ y := by
  induction F with
  | nil => simpa using h
  | cons a F ih =>
    by_cases ha : p a = true
    · rw [List.cons_append, List.dropWhile_cons_of_pos ha, ih,
        List.dropWhile_cons_of_pos ha]
    · rw [List.cons_append, List.dropWhile_cons_of_neg ha,
        List.dropWhile_cons_of_neg ha, List.cons_append]

theorem pyStrip_is_prefix_dropWhile (l : PyStr) : pyStrip l <+: l.dropWhile isPySpace := by
  rw [← List.reverse_suffix]
  unfold pyStrip dropTrailWS
  rw [List.reverse_reverse]
  exact List.dropWhile_suffix _

theorem pyStrip_head {l t : PyStr} {c : Nat} (h : pyStrip l = c :: t) :
    isPySpace c = false := by
  obtain ⟨t', ht'⟩ := pyStrip_is_prefix_dropWhile l
  rw [h] at ht'
  exact dropWhile_head_false ht'.symm

theorem pyStrip_last {l : PyStr} {c : Nat} (h : (pyStrip l).getLast? = some c) :
    isPySpace c = false := by
  rw [List.getLast?_eq_head?_reverse] at h
  unfold pyStrip dropTrailWS at h
  rw [List.reverse_reverse] at h
  cases hA : (l.dropWhile isPySpace).reverse.dropWhile isPySpace with
  | nil => rw [hA] at h; simp at h
  | cons a t =>
    rw [hA] at h
    simp at h
    subst h
    exact dropWhile_head_false hA

theorem pyStrip_eq_self {l : PyStr}
    (hh : ∀ c, l.head? = some c → isPySpace c = false)
    (hl : ∀ c, l.getLast? = some c → isPySpace c = false) : pyStrip l = l := by
  unfold pyStrip dropTrailWS
  rw [dropWhile_eq_self hh,
    dropWhile_eq_self (fun c hc => hl c (by rw [List.getLast?_eq_head?_reverse]; exact hc)),
    List.reverse_reverse]

theorem pyStrip_idem (l : PyStr) : pyStrip (pyStrip l) = pyStrip l := by
  apply pyStrip_eq_self
  · intro d hd
    cases hl : pyStrip l with
    | nil => rw [hl] at hd; simp at hd
    | cons c t =>
      rw [hl] at hd
      simp at hd
      subst hd
      exact pyStrip_head hl
  · intro d hd
    exact pyStrip_last hd

/-! ### collapseWS lemmas -/

theorem collapse_head {c : Nat} (l : PyStr) (h : isPySpace c = false) :
    ∃ t, collapseWS (c :: l) = c :: t := by
  cases l with
  | nil => exact ⟨[], by simp [collapseWS, h]⟩
  | cons d rest => exact ⟨collapseWS (d :: rest), by simp [collapseWS, h]⟩

/-- Every whitespace character of the list is the plain space, code point 32. -/
def allWS32 (l : PyStr) : Prop := ∀ c ∈ l, isPySpace c = true → c = 32

/-- No two adjacent `true` entries (no two adjacent whitespace characters,
applied to a whitespace mask). -/
def noAdjB : List Bool → Bool
  | [] => true
  | [_] => true
  | b :: c :: rest => (!(b && c)) && noAdjB (c :: rest)

/-- The whitespace mask of a string. -/
def wsMask (l : PyStr) : List Bool := l.map isPySpace

theorem noAdjB_cons_false {X : List Bool} : noAdjB (false :: X) = noAdjB X := by
  cases X with
  | nil => rfl
  | cons b t => simp [noAdjB]

theorem collapse_allWS32 (l : PyStr) : allWS32 (collapseWS l) := by
  induction l with
  | nil => intro c hc _; simp [collapseWS] at hc
  | cons a l ih =>
    cases l with
    | nil =>
      intro c hc hws
      by_cases ha : isPySpace a = true
      · simp [collapseWS, ha] at hc
        exact hc
      · simp [collapseWS, ha] at hc
        subst hc
        simp [hws] at ha
    | cons d rest =>
      intro c hc hws
      by_cases ha : isPySpace a = true
      · by_cases hd : isPySpace d = true
        · simp only [collapseWS, if_pos ha, if_pos hd] at hc
          exact ih c hc hws
        · simp only [collapseWS, if_pos ha, if_neg hd, List.mem_cons] at hc
          rcases hc with rfl | hc
          · rfl
          · exact ih c hc hws
      · simp only [collapseWS, if_neg ha, List.mem_cons] at hc
        rcases hc with rfl | hc
        · simp [hws] at ha
        · exact ih c hc hws

theorem collapse_noAdj (l : PyStr) : noAdjB (wsMask (collapseWS l)) = true := by
  induction l with
  | nil => rfl
  | cons a l ih =>
    cases l with
    | nil =>
      by_cases ha : isPySpace a = true <;> simp [collapseWS, ha, wsMask, noAdjB]
    | cons d rest =>
      by_cases ha : isPySpace a = true
      · by_cases hd : isPySpace d = true
        · simpa only [collapseWS, if_pos ha, if_pos hd] using ih
        · obtain ⟨t, ht⟩ := collapse_head rest (by simpa using hd)
          rw [collapseWS]
          rw [if_pos ha, if_neg (by simp [hd]), ht]
          rw [ht] at ih
          simp only [wsMask, List.map_cons, isPySpace_32, hd] at ih ⊢
          simpa [noAdjB] using ih
      · rw [collapseWS]
        rw [if_neg ha]
        have ha' : isPySpace a = false := by simpa using ha
        simp only [wsMask, List.map_cons, ha']
        rw [noAdjB_cons_false]
        exact ih

theorem collapse_eq_self {l : PyStr} (h32 : allWS32 l)
    (hadj : noAdjB (wsMask l) = true) : collapseWS l = l := by
  induction l with
  | nil => rfl
  | cons a l ih =>
    cases l with
    | nil =>
      by_cases ha : isPySpace a = true
      · have h := h32 a (by simp) ha
        simp [collapseWS, ha, h]
      · simp [collapseWS, ha]
    | cons d rest =>
      have h32' : allWS32 (d :: rest) := fun c hc => h32 c (List.mem_cons_of_mem _ hc)
      have hadj' : noAdjB (wsMask (d :: rest)) = true := by
        simp only [wsMask, List.map_cons, noAdjB, Bool.and_eq_true] at hadj ⊢
        exact hadj.2
      by_cases ha : isPySpace a = true
      · have hd : isPySpace d = false := by
          simp only [wsMask, List.map_cons, noAdjB, ha, Bool.and_eq_true,
            Bool.not_eq_true', Bool.true_and] at hadj
          exact hadj.1
        have ha32 : a = 32 := h32 a (by simp) ha
        rw [collapseWS, if_pos ha, if_neg (by simp [hd]), ih h32' hadj', ha32]
      · rw [collapseWS, if_neg ha, ih h32' hadj']

theorem collapse_idem (l : PyStr) : collapseWS (collapseWS l) = collapseWS l :=
  collapse_eq_self (collapse_allWS32 l) (collapse_noAdj l)

theorem collapse_getLast {l : PyStr} {c : Nat} (h : l.getLast? = some c)
    (hc : isPySpace c = false) : (collapseWS l).getLast? = some c := by
  induction l with
  | nil => simp at h
  | cons a l ih =>
    cases l with
    | nil =>
      simp at h
      subst h
      simp [collapseWS, hc]
    | cons d rest =>
      rw [List.getLast?_cons_cons] at h
      have ihh := ih h
      by_cases ha : isPySpace a = true
      · by_cases hd : isPySpace d = true
        · rw [collapseWS, if_pos ha, if_pos hd]
          exact ihh
        · rw [collapseWS, if_pos ha, if_neg (by simp [hd])]
          cases hX : collapseWS (d :: rest) with
          | nil => rw [hX] at ihh; simp at ihh
          | cons x xs =>
            rw [hX] at ihh
            rw [List.getLast?_cons_cons]
            exact ihh
      · rw [collapseWS, if_neg ha]
        cases hX : collapseWS (d :: rest) with
        | nil => rw [hX] at ihh; simp at ihh
        | cons x xs =>
          rw [hX] at ihh
          rw [List.getLast?_cons_cons]
          exact ihh

theorem collapse_append {x y : PyStr}
    (hy : ∀ d, y.head? = some d → isPySpace d = false) :
    collapseWS (x ++ y) = collapseWS x ++ collapseWS y := by
  induction x with
  | nil => simp [collapseWS]
  | cons a x ih =>
    cases x with
    | nil =>
      cases y with
      | nil => simp [collapseWS]
      | cons d ys =>
        have hd : isPySpace d = false := hy d rfl
        by_cases ha : isPySpace a = true <;>
          simp [collapseWS, ha, hd]
    | cons b x' =>
      by_cases ha : isPySpace a = true
      · by_cases hb : isPySpace b = true
        · rw [List.cons_append, List.cons_append, collapseWS, if_pos ha, if_pos hb,
            ← List.cons_append, ih, collapseWS, if_pos ha, if_pos hb]
        · rw [List.cons_append, List.cons_append, collapseWS, if_pos ha,
            if_neg (by simp [hb]), ← List.cons_append, ih, collapseWS, if_pos ha,
            if_neg (by simp [hb]), List.cons_append]
      · have e : collapseWS (a :: b :: x') = a :: collapseWS (b :: x') := by
          rw [collapseWS, if_neg ha]
        have e2 : collapseWS (a :: b :: (x' ++ y)) = a :: collapseWS (b :: (x' ++ y)) := by
          rw [collapseWS, if_neg ha]
        rw [List.cons_append, List.cons_append, e2, ← List.cons_append, ih, e,
          List.cons_append]

/-! ### capAux / upHead lemmas -/

theorem capAux_false_cons (c : Nat) (l : PyStr) :
    capAux false (c :: l) = c :: capAux (isSentEnd c) l := by
  by_cases h : isSentEnd c = true <;> simp [capAux, h]

theorem capAux_idem (l : PyStr) : ∀ b, capAux b (capAux b l) = capAux b l := by
  induction l with
  | nil => intro b; rfl
  | cons c rest ih =>
    intro b
    by_cases h1 : (b && isLowerAZ c) = true
    · have hlow : isLowerAZ c = true := (Bool.and_eq_true _ _).mp h1 |>.2
      have e1 : capAux b (c :: rest) = upChar c :: capAux false rest := by
        simp [capAux, h1]
      rw [e1]
      have h1' : (b && isLowerAZ (upChar c)) = false := by simp [lower_upChar]
      have h2' : isSentEnd (upChar c) = false := by
        rw [punct_upChar]; exact lower_not_punct hlow
      have h3' : (b && isPySpace (upChar c)) = false := by
        rw [ws_upChar, lower_not_ws hlow]; simp
      simp [capAux, h1', h2', h3', ih false]
    · by_cases h2 : isSentEnd c = true
      · have e1 : capAux b (c :: rest) = c :: capAux true rest := by
          simp [capAux, h1, h2]
        rw [e1]
        simp [capAux, h1, h2, ih true]
      · by_cases h3 : (b && isPySpace c) = true
        · have e1 : capAux b (c :: rest) = c :: capAux true rest := by
            simp [capAux, h1, h2, h3]
          rw [e1]
          simp [capAux, h1, h2, h3, ih true]
        · have e1 : capAux b (c :: rest) = c :: capAux false rest := by
            simp [capAux, h1, h2, h3]
          rw [e1]
          simp [capAux, h1, h2, h3, ih false]

theorem capAux_mask (l : PyStr) : ∀ b, (capAux b l).map isPySpace = l.map isPySpace := by
  induction l with
  | nil => intro b; rfl
  | cons c rest ih =>
    intro b
    by_cases h1 : (b && isLowerAZ c) = true
    · simp [capAux, h1, ws_upChar, ih false]
    · by_cases h2 : isSentEnd c = true
      · simp [capAux, h1, h2, ih true]
      · by_cases h3 : (b && isPySpace c) = true
        · simp [capAux, h1, h2, h3, ih true]
        · simp [capAux, h1, h2, h3, ih false]

theorem capAux_caseFold (l : PyStr) : ∀ b, (capAux b l).map caseFold = l.map caseFold := by
  induction l with
  | nil => intro b; rfl
  | cons c rest ih =>
    intro b
    by_cases h1 : (b && isLowerAZ c) = true
    · simp [capAux, h1, caseFold_upChar, ih false]
    · by_cases h2 : isSentEnd c = true
      · simp [capAux, h1, h2, ih true]
      · by_cases h3 : (b && isPySpace c) = true
        · simp [capAux, h1, h2, h3, ih true]
        · simp [capAux, h1, h2, h3, ih false]

theorem capAux_allWS32 {l : PyStr} (h : allWS32 l) : ∀ b, allWS32 (capAux b l) := by
  induction l with
  | nil => intro b c hc; simp [capAux] at hc
  | cons a rest ih =>
    have h' : allWS32 rest := fun c hc => h c (List.mem_cons_of_mem _ hc)
    intro b c hc hws
    by_cases h1 : (b && isLowerAZ a) = true
    · have hlow : isLowerAZ a = true := (Bool.and_eq_true _ _).mp h1 |>.2
      simp [capAux, h1] at hc
      rcases hc with rfl | hc
      · rw [ws_upChar, lower_not_ws hlow] at hws
        exact absurd hws (by simp)
      · exact ih h' false c hc hws
    · by_cases h2 : isSentEnd a = true
      · simp [capAux, h1, h2] at hc
        rcases hc with rfl | hc
        · exact h c (by simp) hws
        · exact ih h' true c hc hws
      · by_cases h3 : (b && isPySpace a) = true
        · simp [capAux, h1, h2, h3] at hc
          rcases hc with rfl | hc
          · exact h c (by simp) hws
          · exact ih h' true c hc hws
        · simp [capAux, h1, h2, h3] at hc
          rcases hc with rfl | hc
          · exact h c (by simp) hws
          · exact ih h' false c hc hws

theorem upHead_mask (l : PyStr) : (upHead l).map isPySpace = l.map isPySpace := by
  cases l with
  | nil => rfl
  | cons c cs => simp [upHead, ws_upChar]

theorem upHead_caseFold (l : PyStr) : (upHead l).map caseFold = l.map caseFold := by
  cases l with
  | nil => rfl
  | cons c cs => simp [upHead, caseFold_upChar]

theorem upHead_allWS32 {l : PyStr} (h : allWS32 l) : allWS32 (upHead l) := by
  cases l with
  | nil => exact h
  | cons c cs =>
    intro x hx hws
    simp [upHead] at hx
    rcases hx with rfl | hx
    · rw [ws_upChar] at hws
      have hc := h c (by simp) hws
      subst hc
      rfl
    · exact h x (by simp [hx]) hws

/-! ### formatText lemmas -/

theorem mask_last_ws (l₁ l₂ : PyStr) (h : l₁.map isPySpace = l₂.map isPySpace) :
    (l₁.getLast?).map isPySpace = (l₂.getLast?).map isPySpace := by
  rw [← List.getLast?_map, ← List.getLast?_map]
  exact congrArg List.getLast? h

theorem formatText_caseFold (x : PyStr) :
    (formatText x).map caseFold = (collapseWS (pyStrip x)).map caseFold := by
  by_cases hx : x = []
  · subst hx; rfl
  · rw [formatText, if_neg hx, capAfterPunct, capAux_caseFold, upHead_caseFold]

/-- Claim C4: the display formatting function `_format_text` is idempotent:
for every string `s`, `_format_text(_format_text(s)) == _format_text(s)`,
where `_format_text` collapses whitespace runs to single spaces, trims,
uppercases the first letter, and uppercases the first letter following
`.`, `!` or `?` optionally followed by whitespace. -/
theorem formatText_idem (s : PyStr) : formatText (formatText s) = formatText s := by
  by_cases hs : s = []
  · subst hs; rfl
  · have hfs : formatText s = capAfterPunct (upHead (collapseWS (pyStrip s))) := by
      rw [formatText, if_neg hs]
    rw [hfs]
    cases hG : collapseWS (pyStrip s) with
    | nil => simp [upHead, capAfterPunct, capAux, formatText]
    | cons c cs =>
      have hch : isPySpace c = false := by
        cases hps : pyStrip s with
        | nil => rw [hps] at hG; simp [collapseWS] at hG
        | cons p ps =>
          have hp : isPySpace p = false := pyStrip_head hps
          obtain ⟨t, ht⟩ := collapse_head ps hp
          rw [hps, ht] at hG
          obtain ⟨h1, _⟩ := List.cons.inj hG
          subst h1
          exact hp
      have hps_ne : pyStrip s ≠ [] := by
        intro hnil
        rw [hnil] at hG
        simp [collapseWS] at hG
      obtain ⟨w, hw, hwf⟩ : ∃ w, (c :: cs).getLast? = some w ∧ isPySpace w = false := by
        obtain ⟨w0, hw0⟩ : ∃ w0, (pyStrip s).getLast? = some w0 := by
          cases h0 : (pyStrip s).getLast? with
          | none => exact absurd (List.getLast?_eq_none_iff.mp h0) hps_ne
          | some w0 => exact ⟨w0, rfl⟩
        have hwf0 := pyStrip_last hw0
        refine ⟨w0, ?_, hwf0⟩
        rw [← hG]
        exact collapse_getLast hw0 hwf0
      have h32 : allWS32 (c :: cs) := hG ▸ collapse_allWS32 (pyStrip s)
      have hadj : noAdjB (wsMask (c :: cs)) = true := hG ▸ collapse_noAdj (pyStrip s)
      rw [capAfterPunct, upHead, capAux_false_cons]
      have hmask : (upChar c :: capAux (isSentEnd (upChar c)) cs).map isPySpace
          = (c :: cs).map isPySpace := by
        simp [ws_upChar, capAux_mask]
      have hT32 : allWS32 (upChar c :: capAux (isSentEnd (upChar c)) cs) := by
        have h1 : allWS32 (upHead (c :: cs)) := upHead_allWS32 h32
        have h2 := capAux_allWS32 h1 false
        rw [upHead, capAux_false_cons] at h2
        exact h2
      have hTadj : noAdjB (wsMask (upChar c :: capAux (isSentEnd (upChar c)) cs)) = true := by
        unfold wsMask at hadj ⊢
        rw [hmask]
        exact hadj
      have hThead : isPySpace (upChar c) = false := by rw [ws_upChar]; exact hch
      have hTlast : ∀ d, (upChar c :: capAux (isSentEnd (upChar c)) cs).getLast? = some d →
          isPySpace d = false := by
        intro d hd
        have hm := mask_last_ws (upChar c :: capAux (isSentEnd (upChar c)) cs)
          (c :: cs) hmask
        rw [hd, hw] at hm
        simp at hm
        rw [hm]
        exact hwf
      have hTstrip : pyStrip (upChar c :: capAux (isSentEnd (upChar c)) cs)
          = upChar c :: capAux (isSentEnd (upChar c)) cs := by
        apply pyStrip_eq_self
        · intro d hd
          simp at hd
          subst hd
          exact hThead
        · exact hTlast
      have hTcol : collapseWS (upChar c :: capAux (isSentEnd (upChar c)) cs)
          = upChar c :: capAux (isSentEnd (upChar c)) cs :=
        collapse_eq_self hT32 hTadj
      have hTne : upChar c :: capAux (isSentEnd (upChar c)) cs ≠ [] := by simp
      rw [formatText, if_neg hTne, hTstrip, hTcol, upHead, upChar_idem, capAfterPunct,
        ← capAux_false_cons]
      exact capAux_idem (upChar c :: cs) false

/-! ### Stripping around an appended final segment -/

theorem strip_append_space {F v : PyStr} {c w : Nat} {vs : PyStr}
    (hv : v = c :: vs) (hc : isPySpace c = false)
    (hw : v.getLast? = some w) (hwf : isPySpace w = false) :
    pyStrip (F ++ v ++ [32]) = F.dropWhile isPySpace ++ v := by
  have hfix : (v ++ [32]).dropWhile isPySpace = v ++ [32] := by
    apply dropWhile_eq_self
    intro d hd
    rw [hv] at hd
    simp at hd
    subst hd
    exact hc
  have h1 : (F ++ (v ++ [32])).dropWhile isPySpace = F.dropWhile isPySpace ++ (v ++ [32]) :=
    dropWhile_append_of_fix F hfix
  unfold pyStrip
  rw [List.append_assoc, h1]
  unfold dropTrailWS
  rw [← List.append_assoc, List.reverse_append]
  rw [show ([32] : PyStr).reverse = [32] from rfl, List.singleton_append,
    List.dropWhile_cons_of_pos isPySpace_32]
  have h2 : ((F.dropWhile isPySpace ++ v).reverse).dropWhile isPySpace
      = (F.dropWhile isPySpace ++ v).reverse := by
    apply dropWhile_eq_self
    intro d hd
    rw [List.head?_reverse, List.getLast?_append, hw] at hd
    simp at hd
    subst hd
    exact hwf
  rw [h2, List.reverse_reverse]

/-! ### The claims -/

/-- Buffer state after step 1 of the specified scenario. -/
def scenarioB1 : TextBuffer := TextBuffer.init.add_partial_text (pyStr "hello")

/-- Buffer state after step 2 of the specified scenario. -/
def scenarioB2 : TextBuffer := scenarioB1.add_partial_text (pyStr "hello world")

/-- Buffer state after step 3 of the specified scenario. -/
def scenarioB3 : TextBuffer := scenarioB2.add_final_text (pyStr "hello world")

/-- Buffer state after step 4 of the specified scenario. -/
def scenarioB4 : TextBuffer := scenarioB3.add_final_text (pyStr "this is a test. hello world")

/-- Claim C1 (counterexample): the quoted scenario is wrong about the last
step: the code produces a lowercase `this` (no sentence boundary precedes it)
and a committed word count of 8, not 7. -/
theorem larynx_scenario_cex :
    scenarioB4.get_full_text ≠ pyStr "Hello world This is a test. Hello world" ∧
    scenarioB4.get_word_count ≠ 7 := by
  decide

/-- Claim C1 (amended): starting from an empty `TextBuffer`, the call sequence
`add_partial_text("hello"); add_partial_text("hello world");
add_final_text("hello world"); add_final_text("this is a test. hello world")`
yields, at each step, `get_full_text()` equal to `"Hello"`, `"Hello world"`,
`"Hello world"`, and `"Hello world this is a test. Hello world"` (the word
`this` is not capitalized, since no sentence-ending punctuation precedes it),
with `get_word_count() == 2` after the first final and `== 8` after the
second; a subsequent `clear()` yields `get_full_text() == ""`. -/
theorem larynx_scenario_amended :
    scenarioB1.get_full_text = pyStr "Hello" ∧
    scenarioB2.get_full_text = pyStr "Hello world" ∧
    scenarioB3.get_full_text = pyStr "Hello world" ∧
    scenarioB3.get_word_count = 2 ∧
    scenarioB4.get_full_text = pyStr "Hello world this is a test. Hello world" ∧
    scenarioB4.get_word_count = 8 ∧
    (scenarioB4.clear).get_full_text = pyStr "" := by
  decide

/-- Claim C2 (counterexample): `add_final_text("")` does not clear the
partial component: the clearing statement sits inside the `if text:` body,
so an empty final leaves an in-flight partial in place. -/
theorem add_final_empty_cex :
    (TextBuffer.add_final_text (TextBuffer.init.add_partial_text (pyStr "hi")) []).partial_text
      ≠ [] := by
  decide

/-- Claim C2 (amended): after `add_final_text(text)`, if `text` is non-empty
the normalized text plus one trailing space is appended to `finalText` and
`partialText` is cleared to `""`; if `text` is empty the buffer is unchanged,
so a pending `partialText` is retained rather than cleared. -/
theorem add_final_text_spec (b : TextBuffer) (text : PyStr) :
    (b.add_final_text text).partial_text = (if text = [] then b.partial_text else []) ∧
    (b.add_final_text text).final_text =
      (if text = [] then b.final_text else b.final_text ++ cleanText text ++ [32]) := by
  by_cases h : text = [] <;> simp [TextBuffer.add_final_text, h]

/-- Claim C3: if the recognizer holds a buffered unconfirmed result when
`stop_recording()` is called while recording, the flushed final result (when
non-empty after the adapter's stripping) is appended, normalized, to the
buffer's final text, and is present (up to the capitalization applied by
display formatting) as a suffix of `get_full_text()` after `stop_recording()`
returns; the finalization step runs on every stop of a recording session. -/
theorem stop_flush_no_loss (buf : TextBuffer) (e : VoskEngine) (t : PyStr)
    (ha : e.is_active = true) (hr : e.hasRecognizer = true) (hne : pyStrip t ≠ []) :
    (stop_recording_effect true e (some t) buf).final_text =
      buf.final_text ++ collapseWS (pyStrip t) ++ [32] ∧
    (collapseWS (pyStrip t)).map caseFold <:+
      ((stop_recording_effect true e (some t) buf).get_full_text).map caseFold := by
  have hget : get_final_result e (some t) = pyStrip t := by
    simp [get_final_result, ha, hr]
  have hclean : cleanText (pyStrip t) = collapseWS (pyStrip t) := by
    rw [cleanText, if_neg hne, pyStrip_idem]
  have hb : stop_recording_effect true e (some t) buf =
      { buf with final_text := buf.final_text ++ collapseWS (pyStrip t) ++ [32],
                 partial_text := [] } := by
    rw [stop_recording_effect, if_pos rfl, finalize_transcription]
    simp only [hget]
    rw [if_pos hne, TextBuffer.add_final_text, if_pos hne, hclean]
  obtain ⟨p, ps, hps⟩ : ∃ p ps, pyStrip t = p :: ps := by
    cases hx : pyStrip t with
    | nil => exact absurd hx hne
    | cons p ps => exact ⟨p, ps, rfl⟩
  have hp : isPySpace p = false := pyStrip_head hps
  obtain ⟨vt, hvt⟩ := collapse_head ps hp
  have hv : collapseWS (pyStrip t) = p :: vt := by rw [hps]; exact hvt
  obtain ⟨w0, hw0⟩ : ∃ w0, (pyStrip t).getLast? = some w0 := by
    cases h0 : (pyStrip t).getLast? with
    | none => exact absurd (List.getLast?_eq_none_iff.mp h0) hne
    | some w0 => exact ⟨w0, rfl⟩
  have hwf0 : isPySpace w0 = false := pyStrip_last hw0
  have hvlast : (collapseWS (pyStrip t)).getLast? = some w0 := collapse_getLast hw0 hwf0
  constructor
  · rw [hb]
  · rw [hb]
    show (collapseWS (pyStrip t)).map caseFold <:+
      (formatText (pyStrip ((buf.final_text ++ collapseWS (pyStrip t) ++ [32]) ++ []))).map
        caseFold
    rw [List.append_nil, formatText_caseFold, pyStrip_idem,
      strip_append_space hv hp hvlast hwf0,
      collapse_append (by intro d hd; rw [hv] at hd; simp at hd; subst hd; exact hp),
      collapse_idem, List.map_append]
    exact List.suffix_append _ _

/-- Witness for C3 at a concrete input. -/
theorem stop_flush_no_loss_witness :
    pyStrip (pyStr "hello") ≠ [] ∧
    ((stop_recording_effect true ⟨true, true⟩ (some (pyStr "hello"))
        TextBuffer.init).final_text =
      TextBuffer.init.final_text ++ collapseWS (pyStrip (pyStr "hello")) ++ [32] ∧
    (collapseWS (pyStrip (pyStr "hello"))).map caseFold <:+
      ((stop_recording_effect true ⟨true, true⟩ (some (pyStr "hello"))
          TextBuffer.init).get_full_text).map caseFold) :=
  ⟨by decide, stop_flush_no_loss TextBuffer.init ⟨true, true⟩ (pyStr "hello") rfl rfl
    (by decide)⟩

/-- Claim C5: when the engine is inactive or the recognizer is missing,
`process_audio` returns early with the distinguished all-`None` result
(no recognition is attempted), while an error while processing a single
frame is caught — the call still returns a normal result dict and never
raises, so the stream is not terminated. -/
theorem process_audio_error_contract (e : VoskEngine) (ev : RecEvent) (t : PyStr) :
    ((e.is_active = false ∨ e.hasRecognizer = false) → process_audio e ev = ⟨none, none⟩) ∧
    (e.is_active = true → e.hasRecognizer = true →
      process_audio e (RecEvent.partialRes t) = ⟨some (pyStrip t), none⟩ ∧
      process_audio e (RecEvent.acceptedFinal t) = ⟨none, some (pyStrip t)⟩ ∧
      process_audio e RecEvent.procError = ⟨none, none⟩) := by
  constructor
  · intro h
    rcases h with h | h <;> simp [process_audio, h]
  · intro h1 h2
    refine ⟨?_, ?_, ?_⟩ <;> simp [process_audio, h1, h2]

/-- Witness for C5 at concrete inputs. -/
theorem process_audio_error_contract_witness :
    process_audio ⟨false, true⟩ (RecEvent.partialRes (pyStr "a")) = ⟨none, none⟩ ∧
    process_audio ⟨true, true⟩ RecEvent.procError = ⟨none, none⟩ :=
  ⟨(process_audio_error_contract ⟨false, true⟩ (RecEvent.partialRes (pyStr "a"))
      (pyStr "a")).1 (Or.inl rfl),
   ((process_audio_error_contract ⟨true, true⟩ RecEvent.procError (pyStr "a")).2
      rfl rfl).2.2⟩

/-- Claim C6: the frame queue never holds more than its configured capacity
of 100 frames, and a push onto a full queue removes the oldest queued frame
and then inserts the new frame; the operation is a total function of the
queue state, never waiting on the consumer. -/
theorem frame_queue_drop_oldest {α : Type} (q : List α) (x : α)
    (h : q.length ≤ 100) :
    (pushDropOldest 100 q x).length ≤ 100 ∧
    (q.length = 100 → pushDropOldest 100 q x = q.tail ++ [x]) := by
  by_cases hlt : q.length < 100
  · constructor
    · simp only [pushDropOldest, queuePut, if_pos hlt]
      simp
      omega
    · intro h100
      omega
  · have h100 : q.length = 100 := by omega
    cases q with
    | nil => simp at h100
    | cons a rest =>
      have hr : rest.length = 99 := by
        simp at h100
        omega
      have hr' : rest.length < 100 := by omega
      constructor
      · simp only [pushDropOldest, queuePut, if_neg hlt, if_pos hr']
        simp [hr]
      · intro _
        simp only [pushDropOldest, queuePut, if_neg hlt, if_pos hr']
        simp

/-- Witness for C6 at a concrete full queue. -/
theorem frame_queue_drop_oldest_witness :
    (pushDropOldest 100 (List.replicate 100 (0 : Nat)) 7).length ≤ 100 ∧
    pushDropOldest 100 (List.replicate 100 (0 : Nat)) 7 =
      (List.replicate 100 (0 : Nat)).tail ++ [7] := by
  have h := frame_queue_drop_oldest (List.replicate 100 (0 : Nat)) 7 (by simp)
  exact ⟨h.1, h.2 (by simp)⟩

/-- Claim C7: `final_text` is append-only: over any sequence of
`add_partial_text` / `add_final_text` calls, the starting `final_text` is a
prefix of the resulting one (it never shrinks); `clear()` resets it to
empty. -/
theorem final_text_append_only (ops : List BufOp) (b : TextBuffer) :
    b.final_text <+: (ops.foldl applyOp b).final_text ∧
    (TextBuffer.clear b).final_text = [] := by
  refine ⟨?_, rfl⟩
  induction ops generalizing b with
  | nil => exact List.prefix_rfl
  | cons op ops ih =>
    refine List.IsPrefix.trans ?_ (ih (applyOp b op))
    cases op with
    | opPartial t =>
      by_cases h : t = [] <;> simp [applyOp, TextBuffer.add_partial_text, h]
    | opFinal t =>
      by_cases h : t = []
      · simp [applyOp, TextBuffer.add_final_text, h]
      · simp only [applyOp, TextBuffer.add_final_text, if_pos h]
        exact (List.prefix_append _ _).trans (List.prefix_append _ _)

/-- Claim C8: `get_word_count()` is the whitespace-token count of
`final_text` alone, and its value is unchanged by any `add_partial_text`
call; only operations that modify `final_text` (`add_final_text`, `clear`)
can change it. -/
theorem word_count_from_final_only (b : TextBuffer) (t : PyStr) :
    (b.add_partial_text t).get_word_count = b.get_word_count ∧
    b.get_word_count = (pySplit b.final_text).length := by
  refine ⟨?_, rfl⟩
  by_cases h : t = [] <;> simp [TextBuffer.add_partial_text, h, TextBuffer.get_word_count]

/-- Claim C9: after `clear()` both fields are empty: `get_full_text()`
returns `""` and `get_word_count()` returns `0`, regardless of prior
state. -/
theorem clear_total (b : TextBuffer) :
    (TextBuffer.clear b).get_full_text = [] ∧ (TextBuffer.clear b).get_word_count = 0 :=
  ⟨rfl, rfl⟩

/-- Claim C10: `process_audio` returns a dict in which at most one of
`'partial'` and `'final'` is non-`None` (exactly one recognizer branch runs
per frame), and when the engine is inactive or the recognizer is `None` both
values are `None`. -/
theorem process_audio_exclusive (e : VoskEngine) (ev : RecEvent) :
    ((process_audio e ev).partialOut = none ∨ (process_audio e ev).finalOut = none) ∧
    ((e.is_active = false ∨ e.hasRecognizer = false) → process_audio e ev = ⟨none, none⟩) := by
  constructor
  · by_cases hb : (!e.is_active || !e.hasRecognizer) = true
    · simp [process_audio, hb]
    · cases ev <;> simp [process_audio, hb]
  · intro h
    rcases h with h | h <;> simp [process_audio, h]

/-- Witness for C10 at a concrete inactive engine. -/
theorem process_audio_exclusive_witness :
    process_audio ⟨false, false⟩ (RecEvent.partialRes (pyStr "b")) = ⟨none, none⟩ :=
  (process_audio_exclusive ⟨false, false⟩ (RecEvent.partialRes (pyStr "b"))).2 (Or.inl rfl)

end Larynx
